/-
Verification of the KQCircuits repository fragment.

Part 1 embeds `pcells/waveguide_cop.py`: the helper `up_mod`, the arc
sampler `arc`, the curved-segment generator `WaveguideCopCurve.produce_impl`
and the path decomposer `WaveguideCop.produce_impl`.  Real-number arithmetic
replaces floating point; `math.floor` becomes `Int.floor`, `math.atan2`
becomes an explicit case split with `Real.arctan`, and the KLayout host
primitives (`DPoint.distance`, `DVector.abs`, `DVector.vprod_sign`,
`DCplxTrans`) are translated by their documented meaning.  Shape and cell
insertions become lists of emitted descriptors.

Part 2 embeds `kqcircuits/simulations/export/elmer/elmer_solution.py`: the
solution-parameter dataclasses, the `__post_init__` frequency normalisation,
`get_solution_data` and `get_elmer_solution`.  Python values passed through
keyword arguments are modelled by the inductive `PyVal`; dataclass
construction from keyword arguments is modelled by `ofKwargs` folds.
-/
import Mathlib

open Real

/-! ## Geometry: `pcells/waveguide_cop.py` -/

/-- A KLayout `DPoint` / `DVector`: a pair of real coordinates. -/
abbrev DPoint : Type := ℝ × ℝ

/-- Python float modulo `a % per`: a remainder with the sign of `per`,
namely `a - per * floor (a / per)`. -/
noncomputable def pymod (a per : ℝ) : ℝ := a - per * ⌊a / per⌋

/-- `up_mod` (waveguide_cop.py line 5): finds the remainder in the same
direction as the periodicity.  `if (a*per>0): return a % per
else: return a-per*math.floor(a/per)`. -/
noncomputable def up_mod (a per : ℝ) : ℝ :=
  if 0 < a * per then pymod a per else a - per * ⌊a / per⌋

/-- `alpha_rel` as computed in `arc` (line 16):
`up_mod(stop-start, math.pi * 2)`. -/
noncomputable def arcAlphaRel (start stop : ℝ) : ℝ :=
  up_mod (stop - start) (2 * Real.pi)

/-- `alpha_step` as computed in `arc` (line 17):
`2*math.pi/n*(-1 if alpha_rel > math.pi else 1)`. -/
noncomputable def arcStep (start stop : ℝ) (n : ℕ) : ℝ :=
  2 * Real.pi / n * (if Real.pi < arcAlphaRel start stop then -1 else 1)

/-- `n_steps` as computed in `arc` (line 18):
`math.floor((2*math.pi-alpha_rel)/abs(alpha_step) if alpha_rel > math.pi
else alpha_rel/abs(alpha_step))`. -/
noncomputable def arcNSteps (start stop : ℝ) (n : ℕ) : ℤ :=
  ⌊(if Real.pi < arcAlphaRel start stop then 2 * Real.pi - arcAlphaRel start stop
     else arcAlphaRel start stop) / |arcStep start stop n|⌋

/-- The point `pya.DPoint(R * math.cos(alpha), R * math.sin(alpha))`
appended by `arc` for a running angle `alpha`. -/
noncomputable def arcPoint (R alpha : ℝ) : DPoint :=
  (R * Real.cos alpha, R * Real.sin alpha)

/-- `arc(R, start, stop, n)` (lines 12-31).  The loop
`for i in range(0, n_steps+1)` appends the point at angle
`start + i*alpha_step`; after the loop the running variable `last` holds
`start + (n_steps+1)*alpha_step` (and `start` itself when the loop ran zero
times, which the same formula gives).  If `last != stop` one extra point at
angle `stop` is appended. -/
noncomputable def arc (R start stop : ℝ) (n : ℕ) : List DPoint :=
  let alpha_step := arcStep start stop n
  let cnt := (arcNSteps start stop n + 1).toNat
  let pts := (List.range cnt).map (fun (i : ℕ) => arcPoint R (start + (i : ℝ) * alpha_step))
  let last := start + (cnt : ℝ) * alpha_step
  if last = stop then pts else pts ++ [arcPoint R stop]

/-- `math.atan2(y, x)`: the angle of the vector `(x, y)` in `(-pi, pi]`. -/
noncomputable def atan2 (y x : ℝ) : ℝ :=
  if 0 < x then Real.arctan (y / x)
  else if x < 0 then
    (if 0 ≤ y then Real.arctan (y / x) + Real.pi else Real.arctan (y / x) - Real.pi)
  else
    (if 0 < y then Real.pi / 2 else if y < 0 then -(Real.pi / 2) else 0)

/-- KLayout `DVector.vprod_sign`: the sign (-1, 0 or 1) of the vector
product `v.x*w.y - v.y*w.x`. -/
noncomputable def vprod_sign (v w : DPoint) : ℝ :=
  if 0 < v.1 * w.2 - v.2 * w.1 then 1
  else if v.1 * w.2 - v.2 * w.1 < 0 then -1 else 0

/-- KLayout `DPoint.distance`: the Euclidean distance between two points. -/
noncomputable def dpoint_distance (p q : DPoint) : ℝ :=
  Real.sqrt ((q.1 - p.1) ^ 2 + (q.2 - p.2) ^ 2)

/-- KLayout `DVector.abs`: the Euclidean length of a vector. -/
noncomputable def dvector_abs (v : DPoint) : ℝ :=
  Real.sqrt (v.1 ^ 2 + v.2 ^ 2)

/-- The layers used by the pcells: `lo` (gap), `lp` (protection),
`la` (annotation text). -/
inductive Layer where
  | lo : Layer
  | lp : Layer
  | la : Layer
deriving DecidableEq

/-- A KLayout `DCplxTrans(mag, rot, mirrx, disp)`: magnification, rotation
in degrees, mirror flag and displacement. -/
structure DCplxTrans where
  mag : ℝ
  rot : ℝ
  mirrx : Bool
  disp : DPoint

/-- `cut` as computed in `WaveguideCop.produce_impl` (line 189):
`v1.vprod_sign(v2)*self.ru / math.tan((math.pi-(alpha2-alpha1))/2)`,
abstracted over the already computed sign and angles. -/
noncomputable def cutDistance (sgn ru alpha1 alpha2 : ℝ) : ℝ :=
  sgn * ru / Real.tan ((Real.pi - (alpha2 - alpha1)) / 2)

/-- `distcorner` as computed in `WaveguideCop.produce_impl` (line 182):
`v1.vprod_sign(v2)*self.ru / math.sin((math.pi-(alpha2-alpha1))/2)`. -/
noncomputable def cornerDistance (sgn ru alpha1 alpha2 : ℝ) : ℝ :=
  sgn * ru / Real.sin ((Real.pi - (alpha2 - alpha1)) / 2)

/-- What one pass of `WaveguideCop.produce_impl` inserts into the enclosing
cell: a debug `DText` on layer `la` (line 184), a placed instance of the
straight-segment pcell with parameters `a`, `b`, `l` (lines 192-199), or a
placed instance of the curved-segment pcell with parameters `a`, `b`,
`alpha`, `n`, `ru` (lines 203-212). -/
inductive Emitted where
  | text (turn distcorner sgn : ℝ) (pos : DPoint)
  | straight (a b l : ℝ) (trans : DCplxTrans)
  | curved (a b alpha : ℝ) (n : ℕ) (ru : ℝ) (trans : DCplxTrans)

namespace WaveguideCop

/-- The loop of `WaveguideCop.produce_impl` (lines 173-227).  `segLast`
carries the mutable `segment_last`; `p0` is `points[i]` and the list
argument holds `points[i+1], ...`.  Each iteration of
`for i in range(0, len(points)-2)` needs `points[i]`, `points[i+1]` and
`points[i+2]`; afterwards the trailing segment from `segment_last` to
`points[-1]` is emitted (lines 214-227; for a single-point path the loop is
skipped and `points[-1]` is `points[0]`). -/
noncomputable def go (a b ru : ℝ) (n : ℕ) (segLast p0 : DPoint) :
    List DPoint → List Emitted
  | p1 :: p2 :: rest =>
    let v1 : DPoint := (p1.1 - p0.1, p1.2 - p0.2)
    let v2 : DPoint := (p2.1 - p1.1, p2.2 - p1.2)
    let crossing := p1
    let alpha1 := atan2 v1.2 v1.1
    let alpha2 := atan2 v2.2 v2.1
    let alphacorner := (Real.pi - (alpha2 - alpha1)) / 2 + alpha2
    let distcorner := cornerDistance (vprod_sign v1 v2) ru alpha1 alpha2
    let corner : DPoint :=
      (crossing.1 + Real.cos alphacorner * distcorner,
       crossing.2 + Real.sin alphacorner * distcorner)
    let cut := cutDistance (vprod_sign v1 v2) ru alpha1 alpha2
    let l := dpoint_distance segLast p1 - cut
    let angle := 180 / Real.pi * atan2 (p1.2 - segLast.2) (p1.1 - segLast.1)
    let segLast2 : DPoint :=
      (p1.1 + v2.1 * (1 / dvector_abs v2) * cut,
       p1.2 + v2.2 * (1 / dvector_abs v2) * cut)
    Emitted.text (alpha2 - alpha1) distcorner (vprod_sign v1 v2) corner ::
    Emitted.straight a b l ⟨1, angle, false, segLast⟩ ::
    Emitted.curved a b (alpha2 - alpha1) n ru
      ⟨1, alpha1 / Real.pi * 180 - vprod_sign v1 v2 * 90, false, corner⟩ ::
    go a b ru n segLast2 p1 (p2 :: rest)
  | [plast] =>
    [Emitted.straight a b (dpoint_distance segLast plast)
      ⟨1, 180 / Real.pi * atan2 (plast.2 - segLast.2) (plast.1 - segLast.1),
       false, segLast⟩]
  | [] =>
    [Emitted.straight a b (dpoint_distance segLast p0)
      ⟨1, 180 / Real.pi * atan2 (p0.2 - segLast.2) (p0.1 - segLast.1),
       false, segLast⟩]

/-- `WaveguideCop.produce_impl` (lines 169-227), for the path `points` and
the pcell parameters `a`, `b`, `ru`, `n`.  An empty path makes the Python
code raise an `IndexError` on `points[0]`; this is modelled by `none`. -/
noncomputable def produce_impl (a b ru : ℝ) (n : ℕ) :
    List DPoint → Option (List Emitted)
  | [] => none
  | p0 :: rest => some (go a b ru n p0 p0 rest)

end WaveguideCop

namespace WaveguideCopCurve

/-- `WaveguideCopCurve.produce_impl` (lines 112-140): with
`alphastart = 0` and `alphastop = alpha` it inserts the left-gap polygon on
layer `lo`, the right-gap polygon on layer `lo`, and the protection polygon
on layer `lp`, each built from two `arc` samplings. -/
noncomputable def produce_impl (alpha ru a b margin : ℝ) (n : ℕ) :
    List (Layer × List DPoint) :=
  [(Layer.lo, arc (ru - a / 2) 0 alpha n ++ arc (ru - a / 2 - b) alpha 0 n),
   (Layer.lo, arc (ru + a / 2) 0 alpha n ++ arc (ru + a / 2 + b) alpha 0 n),
   (Layer.lp, arc (ru - a / 2 - b - margin) 0 alpha n ++
              arc (ru + a / 2 + b + margin) alpha 0 n)]

end WaveguideCopCurve

/-- The ring construction as the specification describes it (section 4.4):
the outer edge of the ring traversed forward (`0` to `alpha`) concatenated
with the inner edge traversed backward (`alpha` to `0`).  Kept separate from
the source translation to compare the two. -/
noncomputable def specRing (outerR innerR alpha : ℝ) (n : ℕ) : List DPoint :=
  arc outerR 0 alpha n ++ arc innerR alpha 0 n

/-- Counts the straight-segment instances among the emitted descriptors. -/
def countStraight : List Emitted → ℕ
  | [] => 0
  | Emitted.straight _ _ _ _ :: t => countStraight t + 1
  | _ :: t => countStraight t

/-- Counts the curved-segment instances among the emitted descriptors. -/
def countCurved : List Emitted → ℕ
  | [] => 0
  | Emitted.curved _ _ _ _ _ _ :: t => countCurved t + 1
  | _ :: t => countCurved t

/-! ## Solution parameters: `elmer_solution.py` -/

/-- A Python value as it can appear in keyword arguments and in the
`__dict__` of a solution instance. -/
inductive PyVal where
  | int (i : ℤ)
  | num (q : ℚ)
  | bool (b : Bool)
  | str (s : String)
  | list (l : List PyVal)
  | dict (d : List (String × PyVal))

/-- The value of the `frequency` field of `ElmerVectorHelmholtzSolution`,
annotated `Union[float, List[float]]` but, before `__post_init__` runs,
possibly an `int`, a `float`, a list, or some other iterable of floats. -/
inductive FreqArg where
  | ofInt (i : ℤ)
  | ofNum (q : ℚ)
  | ofList (l : List ℚ)
  | ofIter (l : List ℚ)

/-- Serialises a list of rationals as the Python list of floats. -/
def PyVal.ofQList (l : List ℚ) : PyVal := PyVal.list (l.map PyVal.num)

/-- How a `frequency` value appears in the instance `__dict__`. -/
def FreqArg.toPyVal : FreqArg → PyVal
  | FreqArg.ofInt i => PyVal.int i
  | FreqArg.ofNum q => PyVal.num q
  | FreqArg.ofList l => PyVal.ofQList l
  | FreqArg.ofIter l => PyVal.ofQList l

/-- Modelled from the spec: the base `Solution` dataclass
(`kqcircuits/simulations/export/solution.py` is not part of this fragment).
The spec says each schema serialisation renames "one reserved field",
namely `name`; `get_solution_data` pops the key `"name"`, so `Solution`
carries a `name` field, assumed to be a string defaulting to the empty
string. -/
structure Solution where
  name : String := ""

/-- The `ElmerSolution` dataclass (lines 22-66): base parameters with their
defaults.  `tool` is a `ClassVar`, not a field. -/
structure ElmerSolution extends Solution where
  p_element_order : ℤ := 3
  percent_error : ℚ := 0.005
  max_error_scale : ℚ := 2.0
  max_outlier_fraction : ℚ := 0.001
  maximum_passes : ℤ := 1
  minimum_passes : ℤ := 1
  is_axisymmetric : Bool := false
  mesh_levels : ℤ := 1
  mesh_size : List (String × PyVal) := []

/-- The `ElmerVectorHelmholtzSolution` dataclass (lines 69-114). -/
structure ElmerVectorHelmholtzSolution extends ElmerSolution where
  frequency : FreqArg := FreqArg.ofInt 5
  frequency_batch : ℤ := 3
  sweep_type : String := "explicit"
  max_delta_s : ℚ := 0.01
  london_penetration_depth : ℚ := 0
  quadratic_approximation : Bool := false
  second_kind_basis : Bool := false
  use_av : Bool := false
  conductivity : ℚ := 0
  nested_iteration : Bool := false
  convergence_tolerance : ℚ := 1e-10
  max_iterations : ℤ := 2000

/-- The `ElmerCapacitanceSolution` dataclass (lines 117-130). -/
structure ElmerCapacitanceSolution extends ElmerSolution where
  linear_system_method : String := "bicgstab"
  integrate_energies : Bool := false

/-- The `ElmerCrossSectionSolution` dataclass (lines 133-150). -/
structure ElmerCrossSectionSolution extends ElmerSolution where
  linear_system_method : String := "bicgstab"
  integrate_energies : Bool := false
  boundary_conditions : List (String × PyVal) := []

/-- `ElmerSolution.tool` class variable (line 50). -/
def ElmerSolution.tool : String := ""

/-- `ElmerVectorHelmholtzSolution.tool` class variable (line 93). -/
def ElmerVectorHelmholtzSolution.tool : String := "wave_equation"

/-- `ElmerCapacitanceSolution.tool` class variable (line 127). -/
def ElmerCapacitanceSolution.tool : String := "capacitance"

/-- `ElmerCrossSectionSolution.tool` class variable (line 146). -/
def ElmerCrossSectionSolution.tool : String := "cross-section"

/-- `ElmerVectorHelmholtzSolution.__post_init__` (lines 109-114): cast
`frequency` to a list.  A scalar `float` or `int` is wrapped in a
singleton; any other non-list value is converted with `list(...)`; a list
is left untouched. -/
def ElmerVectorHelmholtzSolution.post_init
    (s : ElmerVectorHelmholtzSolution) : ElmerVectorHelmholtzSolution :=
  match s.frequency with
  | FreqArg.ofInt i => { s with frequency := FreqArg.ofList [(i : ℚ)] }
  | FreqArg.ofNum q => { s with frequency := FreqArg.ofList [q] }
  | FreqArg.ofList _ => s
  | FreqArg.ofIter l => { s with frequency := FreqArg.ofList l }

/-- Decodes a keyword-argument value for the `frequency` field. -/
def decodeFreq : PyVal → Option FreqArg
  | PyVal.int i => some (FreqArg.ofInt i)
  | PyVal.num q => some (FreqArg.ofNum q)
  | PyVal.list l =>
    (l.mapM (fun v => match v with
      | PyVal.num q => some q
      | PyVal.int i => some ((i : ℚ))
      | _ => none)).map FreqArg.ofList
  | _ => none

/-- One keyword argument applied to an `ElmerSolution`-level field.  An
unrecognised name is rejected (`dataclass.__init__` raises `TypeError`).
Python dataclasses do not check annotation types at run time; this decoder
is stricter and accepts only annotation-conforming values, which is the
only direction the claims use. -/
def ElmerSolution.setField (s : ElmerSolution) :
    String × PyVal → Option ElmerSolution
  | ("name", PyVal.str v) => some { s with name := v }
  | ("p_element_order", PyVal.int v) => some { s with p_element_order := v }
  | ("percent_error", PyVal.num v) => some { s with percent_error := v }
  | ("max_error_scale", PyVal.num v) => some { s with max_error_scale := v }
  | ("max_outlier_fraction", PyVal.num v) =>
    some { s with max_outlier_fraction := v }
  | ("maximum_passes", PyVal.int v) => some { s with maximum_passes := v }
  | ("minimum_passes", PyVal.int v) => some { s with minimum_passes := v }
  | ("is_axisymmetric", PyVal.bool v) => some { s with is_axisymmetric := v }
  | ("mesh_levels", PyVal.int v) => some { s with mesh_levels := v }
  | ("mesh_size", PyVal.dict v) => some { s with mesh_size := v }
  | _ => none

/-- One keyword argument applied to an `ElmerVectorHelmholtzSolution`. -/
def ElmerVectorHelmholtzSolution.setField (s : ElmerVectorHelmholtzSolution) :
    String × PyVal → Option ElmerVectorHelmholtzSolution
  | ("frequency", v) =>
    (decodeFreq v).map (fun f => { s with frequency := f })
  | ("frequency_batch", PyVal.int v) => some { s with frequency_batch := v }
  | ("sweep_type", PyVal.str v) => some { s with sweep_type := v }
  | ("max_delta_s", PyVal.num v) => some { s with max_delta_s := v }
  | ("london_penetration_depth", PyVal.num v) =>
    some { s with london_penetration_depth := v }
  | ("quadratic_approximation", PyVal.bool v) =>
    some { s with quadratic_approximation := v }
  | ("second_kind_basis", PyVal.bool v) => some { s with second_kind_basis := v }
  | ("use_av", PyVal.bool v) => some { s with use_av := v }
  | ("conductivity", PyVal.num v) => some { s with conductivity := v }
  | ("nested_iteration", PyVal.bool v) => some { s with nested_iteration := v }
  | ("convergence_tolerance", PyVal.num v) =>
    some { s with convergence_tolerance := v }
  | ("max_iterations", PyVal.int v) => some { s with max_iterations := v }
  | (k, v) =>
    (s.toElmerSolution.setField (k, v)).map
      (fun base => { s with toElmerSolution := base })

/-- One keyword argument applied to an `ElmerCapacitanceSolution`. -/
def ElmerCapacitanceSolution.setField (s : ElmerCapacitanceSolution) :
    String × PyVal → Option ElmerCapacitanceSolution
  | ("linear_system_method", PyVal.str v) =>
    some { s with linear_system_method := v }
  | ("integrate_energies", PyVal.bool v) =>
    some { s with integrate_energies := v }
  | (k, v) =>
    (s.toElmerSolution.setField (k, v)).map
      (fun base => { s with toElmerSolution := base })

/-- One keyword argument applied to an `ElmerCrossSectionSolution`. -/
def ElmerCrossSectionSolution.setField (s : ElmerCrossSectionSolution) :
    String × PyVal → Option ElmerCrossSectionSolution
  | ("linear_system_method", PyVal.str v) =>
    some { s with linear_system_method := v }
  | ("integrate_energies", PyVal.bool v) =>
    some { s with integrate_energies := v }
  | ("boundary_conditions", PyVal.dict v) =>
    some { s with boundary_conditions := v }
  | (k, v) =>
    (s.toElmerSolution.setField (k, v)).map
      (fun base => { s with toElmerSolution := base })

/-- Keyword arguments as passed through `**solution_params`. -/
abbrev Kwargs : Type := List (String × PyVal)

/-- `ElmerVectorHelmholtzSolution(**kwargs)`: defaults, keyword overrides,
then `__post_init__`. -/
def ElmerVectorHelmholtzSolution.ofKwargs (kwargs : Kwargs) :
    Option ElmerVectorHelmholtzSolution :=
  (kwargs.foldlM ElmerVectorHelmholtzSolution.setField {}).map
    ElmerVectorHelmholtzSolution.post_init

/-- `ElmerCapacitanceSolution(**kwargs)`. -/
def ElmerCapacitanceSolution.ofKwargs (kwargs : Kwargs) :
    Option ElmerCapacitanceSolution :=
  kwargs.foldlM ElmerCapacitanceSolution.setField {}

/-- `ElmerCrossSectionSolution(**kwargs)`. -/
def ElmerCrossSectionSolution.ofKwargs (kwargs : Kwargs) :
    Option ElmerCrossSectionSolution :=
  kwargs.foldlM ElmerCrossSectionSolution.setField {}

/-- An instance of one of the three registered `ElmerSolution`
subclasses. -/
inductive ElmerSol where
  | vectorHelmholtz (s : ElmerVectorHelmholtzSolution)
  | capacitance (s : ElmerCapacitanceSolution)
  | crossSection (s : ElmerCrossSectionSolution)

/-- The `tool` class variable of the instance's class. -/
def ElmerSol.tool : ElmerSol → String
  | ElmerSol.vectorHelmholtz _ => ElmerVectorHelmholtzSolution.tool
  | ElmerSol.capacitance _ => ElmerCapacitanceSolution.tool
  | ElmerSol.crossSection _ => ElmerCrossSectionSolution.tool

/-- The `name` field of the instance. -/
def ElmerSol.name : ElmerSol → String
  | ElmerSol.vectorHelmholtz s => s.name
  | ElmerSol.capacitance s => s.name
  | ElmerSol.crossSection s => s.name

/-- The `__dict__` entries contributed by the `ElmerSolution` base fields,
in dataclass field order (base-class fields first). -/
def ElmerSolution.baseFields (s : ElmerSolution) : List (String × PyVal) :=
  [("name", PyVal.str s.name),
   ("p_element_order", PyVal.int s.p_element_order),
   ("percent_error", PyVal.num s.percent_error),
   ("max_error_scale", PyVal.num s.max_error_scale),
   ("max_outlier_fraction", PyVal.num s.max_outlier_fraction),
   ("maximum_passes", PyVal.int s.maximum_passes),
   ("minimum_passes", PyVal.int s.minimum_passes),
   ("is_axisymmetric", PyVal.bool s.is_axisymmetric),
   ("mesh_levels", PyVal.int s.mesh_levels),
   ("mesh_size", PyVal.dict s.mesh_size)]

/-- The instance `__dict__` of an `ElmerSol`, in field order. -/
def ElmerSol.fields : ElmerSol → List (String × PyVal)
  | ElmerSol.vectorHelmholtz s =>
    s.toElmerSolution.baseFields ++
    [("frequency", s.frequency.toPyVal),
     ("frequency_batch", PyVal.int s.frequency_batch),
     ("sweep_type", PyVal.str s.sweep_type),
     ("max_delta_s", PyVal.num s.max_delta_s),
     ("london_penetration_depth", PyVal.num s.london_penetration_depth),
     ("quadratic_approximation", PyVal.bool s.quadratic_approximation),
     ("second_kind_basis", PyVal.bool s.second_kind_basis),
     ("use_av", PyVal.bool s.use_av),
     ("conductivity", PyVal.num s.conductivity),
     ("nested_iteration", PyVal.bool s.nested_iteration),
     ("convergence_tolerance", PyVal.num s.convergence_tolerance),
     ("max_iterations", PyVal.int s.max_iterations)]
  | ElmerSol.capacitance s =>
    s.toElmerSolution.baseFields ++
    [("linear_system_method", PyVal.str s.linear_system_method),
     ("integrate_energies", PyVal.bool s.integrate_energies)]
  | ElmerSol.crossSection s =>
    s.toElmerSolution.baseFields ++
    [("linear_system_method", PyVal.str s.linear_system_method),
     ("integrate_energies", PyVal.bool s.integrate_energies),
     ("boundary_conditions", PyVal.dict s.boundary_conditions)]

/-- `ElmerSolution.get_solution_data` (lines 62-66):
`sol_dict = {**self.__dict__, "tool": self.tool}` followed by
`sol_dict["solution_name"] = sol_dict.pop("name")`.  `pop` raises a
`KeyError` when `"name"` is absent, modelled by `none` (unreachable for
dataclass instances, whose `__dict__` always holds `name`). -/
def get_solution_data (s : ElmerSol) : Option (List (String × PyVal)) :=
  let sol_dict := s.fields ++ [("tool", PyVal.str s.tool)]
  match sol_dict.lookup "name" with
  | some v =>
    some ((sol_dict.filter (fun kv => kv.1 != "name")) ++
          [("solution_name", v)])
  | none => none

/-- `get_elmer_solution(tool, **solution_params)` (lines 153-163): try the
registered classes in order `[ElmerVectorHelmholtzSolution,
ElmerCapacitanceSolution, ElmerCrossSectionSolution]`, construct the first
whose `tool` class variable equals `tool`, and raise a `ValueError`
otherwise.  A `TypeError` from `c(**solution_params)` is modelled as
`Except.error "TypeError"`. -/
def get_elmer_solution (tool : String) (solution_params : Kwargs) :
    Except String ElmerSol :=
  if tool = ElmerVectorHelmholtzSolution.tool then
    match ElmerVectorHelmholtzSolution.ofKwargs solution_params with
    | some s => Except.ok (ElmerSol.vectorHelmholtz s)
    | none => Except.error "TypeError"
  else if tool = ElmerCapacitanceSolution.tool then
    match ElmerCapacitanceSolution.ofKwargs solution_params with
    | some s => Except.ok (ElmerSol.capacitance s)
    | none => Except.error "TypeError"
  else if tool = ElmerCrossSectionSolution.tool then
    match ElmerCrossSectionSolution.ofKwargs solution_params with
    | some s => Except.ok (ElmerSol.crossSection s)
    | none => Except.error "TypeError"
  else
    Except.error ("No ElmerSolution found for tool=" ++ tool ++ ".")

/-! ## Helper lemmas about `up_mod` and `arc` -/

lemma up_mod_eq (a per : ℝ) : up_mod a per = a - per * ⌊a / per⌋ := by
  unfold up_mod pymod
  split <;> rfl

lemma up_mod_eq_fract (a per : ℝ) (h : per ≠ 0) :
    up_mod a per = per * Int.fract (a / per) := by
  rw [up_mod_eq, Int.fract]
  field_simp

lemma up_mod_nonneg (a per : ℝ) (h : 0 < per) : 0 ≤ up_mod a per := by
  rw [up_mod_eq_fract a per h.ne']
  exact mul_nonneg h.le (Int.fract_nonneg _)

lemma up_mod_lt (a per : ℝ) (h : 0 < per) : up_mod a per < per := by
  rw [up_mod_eq_fract a per h.ne']
  calc per * Int.fract (a / per) < per * 1 :=
        mul_lt_mul_of_pos_left (Int.fract_lt_one _) h
    _ = per := mul_one per

lemma arcAlphaRel_nonneg (s e : ℝ) : 0 ≤ arcAlphaRel s e :=
  up_mod_nonneg _ _ (by positivity)

lemma arcAlphaRel_lt (s e : ℝ) : arcAlphaRel s e < 2 * Real.pi :=
  up_mod_lt _ _ (by positivity)

lemma arcStep_of_gt (s e : ℝ) (n : ℕ) (h : Real.pi < arcAlphaRel s e) :
    arcStep s e n = -(2 * Real.pi / n) := by
  unfold arcStep
  rw [if_pos h]
  ring

lemma arcStep_of_le (s e : ℝ) (n : ℕ) (h : ¬ Real.pi < arcAlphaRel s e) :
    arcStep s e n = 2 * Real.pi / n := by
  unfold arcStep
  rw [if_neg h]
  ring

lemma abs_arcStep (s e : ℝ) (n : ℕ) (hn : 1 ≤ n) :
    |arcStep s e n| = 2 * Real.pi / n := by
  have hn0 : 0 < n := hn
  have hn' : (0:ℝ) < n := by exact_mod_cast hn0
  by_cases h : Real.pi < arcAlphaRel s e
  · rw [arcStep_of_gt s e n h, abs_neg, abs_of_pos (by positivity)]
  · rw [arcStep_of_le s e n h, abs_of_pos (by positivity)]

lemma arcNSteps_nonneg (s e : ℝ) (n : ℕ) : 0 ≤ arcNSteps s e n := by
  unfold arcNSteps
  apply Int.floor_nonneg.mpr
  apply div_nonneg _ (abs_nonneg _)
  split
  · linarith [arcAlphaRel_lt s e]
  · exact arcAlphaRel_nonneg s e

lemma arcCnt_cast (s e : ℝ) (n : ℕ) :
    (((arcNSteps s e n + 1).toNat : ℕ) : ℝ) = (arcNSteps s e n : ℝ) + 1 := by
  have h0 := arcNSteps_nonneg s e n
  have h : ((arcNSteps s e n + 1).toNat : ℤ) = arcNSteps s e n + 1 :=
    Int.toNat_of_nonneg (by omega)
  have h' := congrArg (fun z : ℤ => (z : ℝ)) h
  push_cast at h'
  linarith

lemma arcNSteps_bounds (s e : ℝ) (n : ℕ) (hn : 1 ≤ n) :
    (arcNSteps s e n : ℝ) * (2 * Real.pi / n) ≤
      (if Real.pi < arcAlphaRel s e then 2 * Real.pi - arcAlphaRel s e
       else arcAlphaRel s e) ∧
    (if Real.pi < arcAlphaRel s e then 2 * Real.pi - arcAlphaRel s e
     else arcAlphaRel s e) <
      ((arcNSteps s e n : ℝ) + 1) * (2 * Real.pi / n) := by
  have hn0 : 0 < n := hn
  have hn' : (0:ℝ) < n := by exact_mod_cast hn0
  have ht : (0:ℝ) < 2 * Real.pi / n := by positivity
  unfold arcNSteps
  rw [abs_arcStep s e n hn]
  constructor
  · have h := Int.floor_le
      ((if Real.pi < arcAlphaRel s e then 2 * Real.pi - arcAlphaRel s e
        else arcAlphaRel s e) / (2 * Real.pi / n))
    calc (↑⌊(if Real.pi < arcAlphaRel s e then 2 * Real.pi - arcAlphaRel s e
           else arcAlphaRel s e) / (2 * Real.pi / n)⌋ : ℝ) * (2 * Real.pi / n) ≤
          ((if Real.pi < arcAlphaRel s e then 2 * Real.pi - arcAlphaRel s e
           else arcAlphaRel s e) / (2 * Real.pi / n)) * (2 * Real.pi / n) :=
          mul_le_mul_of_nonneg_right h ht.le
      _ = (if Real.pi < arcAlphaRel s e then 2 * Real.pi - arcAlphaRel s e
           else arcAlphaRel s e) := div_mul_cancel₀ _ ht.ne'
  · have h := Int.lt_floor_add_one
      ((if Real.pi < arcAlphaRel s e then 2 * Real.pi - arcAlphaRel s e
        else arcAlphaRel s e) / (2 * Real.pi / n))
    have h2 := (div_lt_iff₀ ht).mp h
    push_cast at h2 ⊢
    linarith

lemma arc_def (R s e : ℝ) (n : ℕ) :
    arc R s e n =
      if s + (((arcNSteps s e n + 1).toNat : ℕ) : ℝ) * arcStep s e n = e then
        (List.range (arcNSteps s e n + 1).toNat).map
          (fun (i : ℕ) => arcPoint R (s + (i : ℝ) * arcStep s e n))
      else
        (List.range (arcNSteps s e n + 1).toNat).map
          (fun (i : ℕ) => arcPoint R (s + (i : ℝ) * arcStep s e n)) ++
          [arcPoint R e] := rfl

lemma arc_mem (R s e : ℝ) (n : ℕ) (p : DPoint) (hp : p ∈ arc R s e n) :
    ∃ θ, p = arcPoint R θ := by
  rw [arc_def] at hp
  split at hp
  · obtain ⟨i, _, hi⟩ := List.mem_map.mp hp
    exact ⟨_, hi.symm⟩
  · rcases List.mem_append.mp hp with h | h
    · obtain ⟨i, _, hi⟩ := List.mem_map.mp h
      exact ⟨_, hi.symm⟩
    · exact ⟨e, (List.mem_singleton.mp h)⟩

lemma arcPoint_norm (R θ : ℝ) (hR : 0 ≤ R) :
    Real.sqrt ((arcPoint R θ).1 ^ 2 + (arcPoint R θ).2 ^ 2) = R := by
  unfold arcPoint
  have h : (R * Real.cos θ) ^ 2 + (R * Real.sin θ) ^ 2 =
      R ^ 2 * ((Real.sin θ) ^ 2 + (Real.cos θ) ^ 2) := by ring
  simp only [h, Real.sin_sq_add_cos_sq, mul_one]
  exact Real.sqrt_sq hR

lemma arc_head (R s e : ℝ) (n : ℕ) :
    (arc R s e n).head? = some (arcPoint R s) := by
  rw [arc_def]
  have hpos : 0 < (arcNSteps s e n + 1).toNat := by
    have := arcNSteps_nonneg s e n
    omega
  obtain ⟨c, hc⟩ : ∃ c, (arcNSteps s e n + 1).toNat = c + 1 :=
    ⟨_, (Nat.succ_pred_eq_of_pos hpos).symm⟩
  rw [hc, List.range_succ_eq_map]
  split <;> simp

lemma arc_ne_nil (R s e : ℝ) (n : ℕ) : arc R s e n ≠ [] := by
  intro h
  have := arc_head R s e n
  rw [h] at this
  simp at this

lemma arc_landing (s e : ℝ) (n : ℕ) (hn : 1 ≤ n)
    (h : s + (((arcNSteps s e n + 1).toNat : ℕ) : ℝ) * arcStep s e n = e) :
    n = 1 ∧ arcAlphaRel s e = 0 ∧ e = s + 2 * Real.pi := by
  have hn0 : 0 < n := hn
  have hn' : (0:ℝ) < n := by exact_mod_cast hn0
  have hpi := Real.pi_pos
  have hr0 : 0 ≤ arcAlphaRel s e := arcAlphaRel_nonneg s e
  have hr2 : arcAlphaRel s e < 2 * Real.pi := arcAlphaRel_lt s e
  have ht : (0:ℝ) < 2 * Real.pi / n := by positivity
  have hge1 : (1:ℝ) ≤ n := by exact_mod_cast hn
  have ht2 : 2 * Real.pi / n ≤ 2 * Real.pi := by
    rw [div_le_iff₀ hn']
    nlinarith
  have hm : e - s = arcAlphaRel s e +
      2 * Real.pi * (⌊(e - s) / (2 * Real.pi)⌋ : ℝ) := by
    unfold arcAlphaRel
    rw [up_mod_eq]
    ring
  set m : ℤ := ⌊(e - s) / (2 * Real.pi)⌋ with hmdef
  rw [arcCnt_cast s e n] at h
  set k : ℤ := arcNSteps s e n with hkdef
  have hk0 : 0 ≤ k := arcNSteps_nonneg s e n
  have hk0' : (0:ℝ) ≤ (k:ℝ) := by exact_mod_cast hk0
  obtain ⟨hlb, hub⟩ := arcNSteps_bounds s e n hn
  by_cases hc : Real.pi < arcAlphaRel s e
  · exfalso
    rw [if_pos hc] at hlb hub
    rw [arcStep_of_gt s e n hc] at h
    have key : arcAlphaRel s e + 2 * Real.pi * (m:ℝ) =
        -(((k:ℝ) + 1) * (2 * Real.pi / n)) := by
      rw [← hm]
      linarith [h]
    have hm1 : (m:ℝ) < -1 := by nlinarith
    have hm2 : (-2:ℝ) ≤ (m:ℝ) := by nlinarith
    have hmz : m = -2 := by
      have a1 : m < -1 := by exact_mod_cast hm1
      have a2 : (-2:ℤ) ≤ m := by exact_mod_cast hm2
      omega
    rw [hmz] at key
    push_cast at key
    have h2pi_le : 2 * Real.pi ≤ 2 * Real.pi / n := by nlinarith
    have htt : 2 * Real.pi / n = 2 * Real.pi := le_antisymm ht2 h2pi_le
    rw [htt] at key hub hlb
    have hk1 : (k:ℝ) < 1 := by nlinarith
    have hk00 : k = 0 := by
      have a1 : k < 1 := by exact_mod_cast hk1
      omega
    rw [hk00] at key
    push_cast at key
    nlinarith
  · rw [if_neg hc] at hlb hub
    push_neg at hc
    rw [arcStep_of_le s e n (not_lt.mpr hc)] at h
    have key : arcAlphaRel s e + 2 * Real.pi * (m:ℝ) =
        ((k:ℝ) + 1) * (2 * Real.pi / n) := by
      rw [← hm]
      linarith [h]
    have hm1 : (0:ℝ) < (m:ℝ) := by nlinarith
    have hm2 : 2 * Real.pi * (m:ℝ) ≤ 2 * Real.pi / n := by nlinarith
    have hmz : m = 1 := by
      have a1 : 0 < m := by exact_mod_cast hm1
      have a2 : (m:ℝ) ≤ 1 := by nlinarith
      have a2' : m ≤ 1 := by exact_mod_cast a2
      omega
    rw [hmz] at key hm2
    push_cast at key hm2
    have h2pi_le : 2 * Real.pi ≤ 2 * Real.pi / n := by linarith
    have htt : 2 * Real.pi / n = 2 * Real.pi := le_antisymm ht2 h2pi_le
    have hn1 : (n:ℝ) = 1 := by
      rw [div_eq_iff hn'.ne'] at htt
      have hmm : 2 * Real.pi * (n:ℝ) = 2 * Real.pi * 1 := by linarith
      exact mul_left_cancel₀ (by positivity) hmm
    have hn1' : n = 1 := by exact_mod_cast hn1
    rw [htt] at key
    have hradd : arcAlphaRel s e = 2 * Real.pi * (k:ℝ) := by linarith
    have hk1 : (k:ℝ) < 1 := by
      by_contra hcon
      push_neg at hcon
      have h2 : 2 * Real.pi * 1 ≤ 2 * Real.pi * (k:ℝ) :=
        mul_le_mul_of_nonneg_left hcon (by positivity)
      linarith
    have hk00 : k = 0 := by
      have a1 : k < 1 := by exact_mod_cast hk1
      omega
    have hrz : arcAlphaRel s e = 0 := by
      rw [hk00] at hradd
      simpa using hradd
    refine ⟨hn1', hrz, ?_⟩
    rw [hrz] at hm
    rw [hmz] at hm
    push_cast at hm
    linarith

lemma arc_getLast (R s e : ℝ) (n : ℕ) (hn : 1 ≤ n) :
    (arc R s e n).getLast? = some (arcPoint R e) := by
  rw [arc_def]
  split
  case isTrue h =>
    obtain ⟨hn1, hrz, he⟩ := arc_landing s e n hn h
    subst hn1
    have hk : arcNSteps s e 1 = 0 := by
      unfold arcNSteps
      rw [hrz, if_neg (not_lt.mpr Real.pi_pos.le)]
      simp
    have hlist : (List.range (arcNSteps s e 1 + 1).toNat).map
        (fun (i : ℕ) => arcPoint R (s + (i : ℝ) * arcStep s e 1)) =
        [arcPoint R s] := by
      rw [hk]
      have h01 : ((0:ℤ) + 1).toNat = 1 := rfl
      rw [h01]
      have hr1 : List.range 1 = [0] := rfl
      rw [hr1]
      simp
    rw [hlist, he]
    unfold arcPoint
    rw [Real.cos_add_two_pi, Real.sin_add_two_pi]
    rfl
  case isFalse h =>
    rw [List.getLast?_concat]

/-! ## Claims about `up_mod` and the arc sampler -/

/-- Claim C10: for every real `a` and period `per > 0`, `up_mod a per` lies
in `[0, per)`, both branches compute `a - per * floor (a / per)`, and the
relative angle `alpha_rel` computed inside `arc` always lies in
`[0, 2 * pi)`. -/
theorem c10_up_mod_range (a per : ℝ) (hper : 0 < per) :
    up_mod a per = a - per * ⌊a / per⌋ ∧
    0 ≤ up_mod a per ∧ up_mod a per < per ∧
    ∀ s e : ℝ, 0 ≤ arcAlphaRel s e ∧ arcAlphaRel s e < 2 * Real.pi :=
  ⟨up_mod_eq a per, up_mod_nonneg a per hper, up_mod_lt a per hper,
   fun s e => ⟨arcAlphaRel_nonneg s e, arcAlphaRel_lt s e⟩⟩

/-- Witness for C10 at `a = 5`, `per = 3`. -/
theorem c10_up_mod_range_witness :
    (0:ℝ) < 3 ∧
    (up_mod 5 3 = 5 - 3 * ⌊(5:ℝ) / 3⌋ ∧
     0 ≤ up_mod 5 3 ∧ up_mod 5 3 < 3 ∧
     ∀ s e : ℝ, 0 ≤ arcAlphaRel s e ∧ arcAlphaRel s e < 2 * Real.pi) :=
  ⟨by norm_num, c10_up_mod_range 5 3 (by norm_num)⟩

/-- Claim C2: for every radius `R > 0`, start angle `s`, stop angle `e` and
sample count `n ≥ 1`, every point produced by `arc R s e n` lies at
distance `R` from the origin, the first point is the point at angle `s`,
and the last point is the point at angle `e` (exactly, in real
arithmetic). -/
theorem c2_arc_on_circle (R s e : ℝ) (n : ℕ) (hR : 0 < R) (hn : 1 ≤ n) :
    (∀ p ∈ arc R s e n, Real.sqrt (p.1 ^ 2 + p.2 ^ 2) = R) ∧
    (arc R s e n).head? = some (arcPoint R s) ∧
    (arc R s e n).getLast? = some (arcPoint R e) := by
  refine ⟨?_, arc_head R s e n, arc_getLast R s e n hn⟩
  intro p hp
  obtain ⟨θ, rfl⟩ := arc_mem R s e n p hp
  exact arcPoint_norm R θ hR.le

/-- Witness for C2 at `R = 1`, `s = 0`, `e = pi`, `n = 2`. -/
theorem c2_arc_on_circle_witness :
    ((0:ℝ) < 1 ∧ (1:ℕ) ≤ 2) ∧
    ((∀ p ∈ arc 1 0 Real.pi 2, Real.sqrt (p.1 ^ 2 + p.2 ^ 2) = 1) ∧
     (arc 1 0 Real.pi 2).head? = some (arcPoint 1 0) ∧
     (arc 1 0 Real.pi 2).getLast? = some (arcPoint 1 Real.pi)) :=
  ⟨⟨by norm_num, by norm_num⟩,
   c2_arc_on_circle 1 0 Real.pi 2 (by norm_num) (by norm_num)⟩

/-! Concrete evaluation of `arc 1 0 (pi/2) 4`, used to refute the stated
stepping rule of claim C3. -/

lemma alphaRel_quarter : arcAlphaRel 0 (Real.pi / 2) = Real.pi / 2 := by
  unfold arcAlphaRel up_mod pymod
  have hpi := Real.pi_pos
  have hc : (0:ℝ) < (Real.pi / 2 - 0) * (2 * Real.pi) := by
    rw [sub_zero]
    positivity
  rw [if_pos hc]
  have hq : (Real.pi / 2 - 0) / (2 * Real.pi) = (4:ℝ)⁻¹ := by
    rw [sub_zero]
    field_simp
    ring
  rw [hq]
  have h4 : ⌊((4:ℝ))⁻¹⌋ = 0 := by
    apply Int.floor_eq_zero_iff.mpr
    constructor <;> norm_num
  rw [h4]
  push_cast
  ring

lemma not_gt_quarter : ¬ Real.pi < arcAlphaRel 0 (Real.pi / 2) := by
  rw [alphaRel_quarter]
  have hpi := Real.pi_pos
  linarith

lemma arcStep_quarter : arcStep 0 (Real.pi / 2) 4 = Real.pi / 2 := by
  rw [arcStep_of_le 0 (Real.pi / 2) 4 not_gt_quarter]
  ring

lemma arcNSteps_quarter : arcNSteps 0 (Real.pi / 2) 4 = 1 := by
  unfold arcNSteps
  rw [if_neg not_gt_quarter, alphaRel_quarter,
    abs_arcStep 0 (Real.pi / 2) 4 (by norm_num)]
  have hpi := Real.pi_pos
  push_cast
  have hq : Real.pi / 2 / (2 * Real.pi / 4) = 1 := by
    field_simp
    ring
  rw [hq, Int.floor_one]

lemma arc_quarter : arc 1 0 (Real.pi / 2) 4 =
    [arcPoint 1 0, arcPoint 1 (Real.pi / 2), arcPoint 1 (Real.pi / 2)] := by
  have hpi := Real.pi_pos
  rw [arc_def, arcNSteps_quarter, arcStep_quarter]
  rw [if_neg (by push_cast; intro hcon; nlinarith)]
  have h2 : ((1:ℤ) + 1).toNat = 2 := rfl
  rw [h2]
  have hr2 : List.range 2 = [0, 1] := rfl
  rw [hr2]
  simp

/-- Claim C3 is refuted at `R = 1`, `s = 0`, `e = pi/2`, `n = 4`: the walk
uses steps of `2*pi/n` (not `n` equal steps from `s` to `e`), here taking
`n_steps = 1` step which lands exactly on the stop angle; the code
nevertheless appends a forced final point, duplicating the stop point, so
the length is `n_steps + 2 = 3` rather than `n_steps + 1`, and is neither
`n + 1` nor `n + 2`. -/
theorem c3_arc_stepping_counterexample :
    arcNSteps 0 (Real.pi / 2) 4 = 1 ∧
    (0:ℝ) + (1:ℝ) * arcStep 0 (Real.pi / 2) 4 = Real.pi / 2 ∧
    arc 1 0 (Real.pi / 2) 4 =
      [arcPoint 1 0, arcPoint 1 (Real.pi / 2), arcPoint 1 (Real.pi / 2)] ∧
    (arc 1 0 (Real.pi / 2) 4).length = 1 + 2 ∧
    (arc 1 0 (Real.pi / 2) 4).length ≠ 4 + 1 ∧
    (arc 1 0 (Real.pi / 2) 4).length ≠ 4 + 2 := by
  refine ⟨arcNSteps_quarter, ?_, arc_quarter, ?_, ?_, ?_⟩
  · rw [arcStep_quarter]
    ring
  · rw [arc_quarter]
    rfl
  · rw [arc_quarter]
    simp
  · rw [arc_quarter]
    simp

/-- Claim C3 (amended): `arc R s e n` walks from `s` toward `e` through the
angularly shorter direction, in equal steps of `2*pi/n` radians (not `n`
steps), taking `n_steps = floor(rel / (2*pi/n))` steps where `rel` is the
shorter angular distance; a final point at exactly angle `e` is appended
unless `s + (n_steps+1)*step` equals `e` exactly — in particular it is
appended, as a duplicate, even when the stepped walk already landed on `e`
— so the returned point count equals `n_steps + 1` or `n_steps + 2`. -/
theorem c3_arc_stepping_amended (R s e : ℝ) (n : ℕ) (hn : 1 ≤ n) :
    |arcStep s e n| = 2 * Real.pi / n ∧
    (¬ Real.pi < arcAlphaRel s e → arcStep s e n = 2 * Real.pi / n) ∧
    (Real.pi < arcAlphaRel s e → arcStep s e n = -(2 * Real.pi / n)) ∧
    0 ≤ arcNSteps s e n ∧
    (arcNSteps s e n : ℝ) * (2 * Real.pi / n) ≤
      (if Real.pi < arcAlphaRel s e then 2 * Real.pi - arcAlphaRel s e
       else arcAlphaRel s e) ∧
    (if Real.pi < arcAlphaRel s e then 2 * Real.pi - arcAlphaRel s e
     else arcAlphaRel s e) <
      ((arcNSteps s e n : ℝ) + 1) * (2 * Real.pi / n) ∧
    arc R s e n =
      (if s + (((arcNSteps s e n + 1).toNat : ℕ) : ℝ) * arcStep s e n = e then
        (List.range (arcNSteps s e n + 1).toNat).map
          (fun (i : ℕ) => arcPoint R (s + (i : ℝ) * arcStep s e n))
       else
        (List.range (arcNSteps s e n + 1).toNat).map
          (fun (i : ℕ) => arcPoint R (s + (i : ℝ) * arcStep s e n)) ++
          [arcPoint R e]) ∧
    ((arc R s e n).length = (arcNSteps s e n).toNat + 1 ∨
     (arc R s e n).length = (arcNSteps s e n).toNat + 2) := by
  obtain ⟨hlb, hub⟩ := arcNSteps_bounds s e n hn
  refine ⟨abs_arcStep s e n hn, arcStep_of_le s e n, arcStep_of_gt s e n,
    arcNSteps_nonneg s e n, hlb, hub, arc_def R s e n, ?_⟩
  have hcnt : (arcNSteps s e n + 1).toNat = (arcNSteps s e n).toNat + 1 := by
    have := arcNSteps_nonneg s e n
    omega
  rw [arc_def]
  split
  · left
    rw [List.length_map, List.length_range, hcnt]
  · right
    rw [List.length_append, List.length_map, List.length_range, hcnt]
    rfl

/-- Witness for the amended C3 at `R = 1`, `s = 0`, `e = pi/2`, `n = 4`. -/
theorem c3_arc_stepping_amended_witness :
    (1:ℕ) ≤ 4 ∧
    |arcStep 0 (Real.pi / 2) 4| = 2 * Real.pi / 4 ∧
    0 ≤ arcNSteps 0 (Real.pi / 2) 4 ∧
    ((arc 1 0 (Real.pi / 2) 4).length = (arcNSteps 0 (Real.pi / 2) 4).toNat + 1 ∨
     (arc 1 0 (Real.pi / 2) 4).length = (arcNSteps 0 (Real.pi / 2) 4).toNat + 2) :=
  ⟨by norm_num,
   (c3_arc_stepping_amended 1 0 (Real.pi / 2) 4 (by norm_num)).1,
   (c3_arc_stepping_amended 1 0 (Real.pi / 2) 4 (by norm_num)).2.2.2.1,
   (c3_arc_stepping_amended 1 0 (Real.pi / 2) 4 (by norm_num)).2.2.2.2.2.2.2⟩

/-! ## Claims about the curved-segment generator -/

lemma head_append_arc (R s e : ℝ) (n : ℕ) (l : List DPoint) :
    ((arc R s e n) ++ l).head? = some (arcPoint R s) := by
  obtain ⟨hd, tl, hcons⟩ := List.exists_cons_of_ne_nil (arc_ne_nil R s e n)
  have hh := arc_head R s e n
  rw [hcons] at hh
  rw [hcons, List.cons_append]
  simpa using hh

lemma arc_append_norm (R1 R2 s1 e1 s2 e2 : ℝ) (n : ℕ)
    (h1 : 0 ≤ R1) (h2 : 0 ≤ R2) (p : DPoint)
    (hp : p ∈ arc R1 s1 e1 n ++ arc R2 s2 e2 n) :
    Real.sqrt (p.1 ^ 2 + p.2 ^ 2) = R1 ∨
    Real.sqrt (p.1 ^ 2 + p.2 ^ 2) = R2 := by
  rcases List.mem_append.mp hp with h | h
  · obtain ⟨θ, rfl⟩ := arc_mem _ _ _ _ p h
    exact Or.inl (arcPoint_norm _ _ h1)
  · obtain ⟨θ, rfl⟩ := arc_mem _ _ _ _ p h
    exact Or.inr (arcPoint_norm _ _ h2)

/-- Claim C9 is refuted at `alpha = pi/2`, `ru = 10`, `a = 2`, `b = 1`,
`margin = 5`, `n = 1`: the outer gap ring produced by the code begins with
the forward arc at its inner radius `ru + a/2 = 11`, so its first point is
`(11, 0)`, whereas the ring described by the claim (outer edge forward)
would begin at `(12, 0)`. -/
theorem c9_curve_rings_counterexample :
    ∃ ring, (WaveguideCopCurve.produce_impl (Real.pi / 2) 10 2 1 5 1).get? 1 =
        some (Layer.lo, ring) ∧
      ring.head? = some ((11:ℝ), (0:ℝ)) ∧
      (specRing (10 + 2 / 2 + 1) (10 + 2 / 2) (Real.pi / 2) 1).head? =
        some ((12:ℝ), (0:ℝ)) ∧
      ((11:ℝ), (0:ℝ)) ≠ ((12:ℝ), (0:ℝ)) := by
  refine ⟨arc (10 + 2 / 2) 0 (Real.pi / 2) 1 ++
    arc (10 + 2 / 2 + 1) (Real.pi / 2) 0 1, rfl, ?_, ?_, ?_⟩
  · rw [head_append_arc]
    unfold arcPoint
    rw [Real.cos_zero, Real.sin_zero]
    norm_num
  · unfold specRing
    rw [head_append_arc]
    unfold arcPoint
    rw [Real.cos_zero, Real.sin_zero]
    norm_num
  · intro hcon
    rw [Prod.ext_iff] at hcon
    norm_num at hcon

/-- Claim C9 (amended): the curved-segment generator emits exactly three
closed polygons — the inner gap ring spanning radii `ru - a/2 - b` to
`ru - a/2` on layer `lo`, the outer gap ring spanning `ru + a/2` to
`ru + a/2 + b` on layer `lo`, and the protection ring spanning
`ru - a/2 - b - margin` to `ru + a/2 + b + margin` on layer `lp` — each
formed by concatenating the arc at the first radius traversed forward
(`0` to `alpha`) with the arc at the second radius traversed backward
(`alpha` to `0`).  The forward arc is the outer edge only for the inner
gap ring; for the outer gap ring and the protection ring the forward arc
is the inner edge. -/
theorem c9_curve_rings_amended (alpha ru a b margin : ℝ) (n : ℕ)
    (h0 : 0 < ru - a / 2 - b - margin) (hb : 0 ≤ b) (hm : 0 ≤ margin)
    (ha : 0 ≤ a) :
    WaveguideCopCurve.produce_impl alpha ru a b margin n =
      [(Layer.lo, arc (ru - a / 2) 0 alpha n ++ arc (ru - a / 2 - b) alpha 0 n),
       (Layer.lo, arc (ru + a / 2) 0 alpha n ++ arc (ru + a / 2 + b) alpha 0 n),
       (Layer.lp, arc (ru - a / 2 - b - margin) 0 alpha n ++
                  arc (ru + a / 2 + b + margin) alpha 0 n)] ∧
    (∀ p ∈ arc (ru - a / 2) 0 alpha n ++ arc (ru - a / 2 - b) alpha 0 n,
      ru - a / 2 - b ≤ Real.sqrt (p.1 ^ 2 + p.2 ^ 2) ∧
      Real.sqrt (p.1 ^ 2 + p.2 ^ 2) ≤ ru - a / 2) ∧
    (∀ p ∈ arc (ru + a / 2) 0 alpha n ++ arc (ru + a / 2 + b) alpha 0 n,
      ru + a / 2 ≤ Real.sqrt (p.1 ^ 2 + p.2 ^ 2) ∧
      Real.sqrt (p.1 ^ 2 + p.2 ^ 2) ≤ ru + a / 2 + b) ∧
    (∀ p ∈ arc (ru - a / 2 - b - margin) 0 alpha n ++
           arc (ru + a / 2 + b + margin) alpha 0 n,
      ru - a / 2 - b - margin ≤ Real.sqrt (p.1 ^ 2 + p.2 ^ 2) ∧
      Real.sqrt (p.1 ^ 2 + p.2 ^ 2) ≤ ru + a / 2 + b + margin) := by
  refine ⟨rfl, ?_, ?_, ?_⟩
  · intro p hp
    rcases arc_append_norm (ru - a / 2) (ru - a / 2 - b) 0 alpha alpha 0 n
      (by linarith) (by linarith) p hp with h | h <;>
      rw [h] <;> constructor <;> linarith
  · intro p hp
    rcases arc_append_norm (ru + a / 2) (ru + a / 2 + b) 0 alpha alpha 0 n
      (by linarith) (by linarith) p hp with h | h <;>
      rw [h] <;> constructor <;> linarith
  · intro p hp
    rcases arc_append_norm (ru - a / 2 - b - margin) (ru + a / 2 + b + margin)
      0 alpha alpha 0 n (by linarith) (by linarith) p hp with h | h <;>
      rw [h] <;> constructor <;> linarith

/-- Witness for the amended C9 at `alpha = pi/2`, `ru = 10`, `a = 2`,
`b = 1`, `margin = 5`, `n = 1`. -/
theorem c9_curve_rings_amended_witness :
    ((0:ℝ) < 10 - 2 / 2 - 1 - 5 ∧ (0:ℝ) ≤ 1 ∧ (0:ℝ) ≤ 5 ∧ (0:ℝ) ≤ 2) ∧
    WaveguideCopCurve.produce_impl (Real.pi / 2) 10 2 1 5 1 =
      [(Layer.lo, arc (10 - 2 / 2) 0 (Real.pi / 2) 1 ++
                  arc (10 - 2 / 2 - 1) (Real.pi / 2) 0 1),
       (Layer.lo, arc (10 + 2 / 2) 0 (Real.pi / 2) 1 ++
                  arc (10 + 2 / 2 + 1) (Real.pi / 2) 0 1),
       (Layer.lp, arc (10 - 2 / 2 - 1 - 5) 0 (Real.pi / 2) 1 ++
                  arc (10 + 2 / 2 + 1 + 5) (Real.pi / 2) 0 1)] :=
  ⟨⟨by norm_num, by norm_num, by norm_num, by norm_num⟩,
   (c9_curve_rings_amended (Real.pi / 2) 10 2 1 5 1 (by norm_num) (by norm_num)
     (by norm_num) (by norm_num)).1⟩

/-! ## Claims about the path decomposer -/

lemma countStraight_go (a b ru : ℝ) (n : ℕ) :
    ∀ (rest : List DPoint) (segLast p0 : DPoint), rest ≠ [] →
      countStraight (WaveguideCop.go a b ru n segLast p0 rest) = rest.length := by
  intro rest
  induction rest with
  | nil => intro _ _ h; exact absurd rfl h
  | cons p1 tail ih =>
    intro segLast p0 _
    cases tail with
    | nil => rfl
    | cons p2 rest2 =>
      simp only [WaveguideCop.go, countStraight]
      rw [ih _ p1 (by simp)]
      simp

lemma countCurved_go (a b ru : ℝ) (n : ℕ) :
    ∀ (rest : List DPoint) (segLast p0 : DPoint), rest ≠ [] →
      countCurved (WaveguideCop.go a b ru n segLast p0 rest) + 1 = rest.length := by
  intro rest
  induction rest with
  | nil => intro _ _ h; exact absurd rfl h
  | cons p1 tail ih =>
    intro segLast p0 _
    cases tail with
    | nil => rfl
    | cons p2 rest2 =>
      simp only [WaveguideCop.go, countCurved]
      rw [ih _ p1 (by simp)]
      simp

/-- Claim C4: for every path of `N ≥ 2` waypoints the decomposer emits
exactly `N - 1` straight-segment instances and `N - 2` curved-segment
instances; for a 2-waypoint path it emits a single straight segment whose
length is the distance between the two waypoints and no curved segment. -/
theorem c4_segment_counts (a b ru : ℝ) (n : ℕ) :
    (∀ pts : List DPoint, 2 ≤ pts.length →
      ∃ segs, WaveguideCop.produce_impl a b ru n pts = some segs ∧
        countStraight segs = pts.length - 1 ∧
        countCurved segs = pts.length - 2) ∧
    (∀ p q : DPoint, WaveguideCop.produce_impl a b ru n [p, q] =
      some [Emitted.straight a b (dpoint_distance p q)
        ⟨1, 180 / Real.pi * atan2 (q.2 - p.2) (q.1 - p.1), false, p⟩]) := by
  constructor
  · intro pts hlen
    match pts, hlen with
    | p0 :: rest, hlen =>
      have hne : rest ≠ [] := by
        intro h
        subst h
        simp at hlen
      refine ⟨_, rfl, ?_, ?_⟩
      · rw [countStraight_go a b ru n rest p0 p0 hne]
        simp
      · have h := countCurved_go a b ru n rest p0 p0 hne
        simp only [List.length_cons]
        omega
  · intro p q
    rfl

/-- Witness for C4 on the 3-waypoint path `[(0,0), (1,0), (1,1)]` and the
2-waypoint path `[(0,0), (3,4)]`. -/
theorem c4_segment_counts_witness :
    (2 ≤ ([((0:ℝ), (0:ℝ)), (1, 0), (1, 1)] : List DPoint).length) ∧
    (∃ segs, WaveguideCop.produce_impl 10 5 2 64
        [((0:ℝ), (0:ℝ)), (1, 0), (1, 1)] = some segs ∧
      countStraight segs = 2 ∧ countCurved segs = 1) ∧
    WaveguideCop.produce_impl 10 5 2 64 [((0:ℝ), (0:ℝ)), (3, 4)] =
      some [Emitted.straight 10 5 (dpoint_distance ((0:ℝ), (0:ℝ)) (3, 4))
        ⟨1, 180 / Real.pi * atan2 ((4:ℝ) - 0) ((3:ℝ) - 0), false,
         ((0:ℝ), (0:ℝ))⟩] :=
  ⟨by simp,
   (c4_segment_counts 10 5 2 64).1 [((0:ℝ), (0:ℝ)), (1, 0), (1, 1)] (by simp),
   (c4_segment_counts 10 5 2 64).2 ((0:ℝ), (0:ℝ)) (3, 4)⟩

lemma atan2_zero_pos (x : ℝ) (hx : 0 < x) : atan2 0 x = 0 := by
  unfold atan2
  rw [if_pos hx]
  simp [Real.arctan_zero]

lemma atan2_pos_zero (y : ℝ) (hy : 0 < y) : atan2 y 0 = Real.pi / 2 := by
  unfold atan2
  rw [if_neg (lt_irrefl 0), if_neg (lt_irrefl 0), if_pos hy]

lemma atan2_neg_zero (y : ℝ) (hy : y < 0) : atan2 y 0 = -(Real.pi / 2) := by
  unfold atan2
  rw [if_neg (lt_irrefl 0), if_neg (lt_irrefl 0), if_neg (by linarith), if_pos hy]

lemma vprod_sign_of_pos (v w : DPoint) (h : 0 < v.1 * w.2 - v.2 * w.1) :
    vprod_sign v w = 1 := by
  unfold vprod_sign
  rw [if_pos h]

lemma cutDistance_right_angle (ru : ℝ) :
    cutDistance 1 ru 0 (Real.pi / 2) = ru := by
  unfold cutDistance
  have h : (Real.pi - (Real.pi / 2 - 0)) / 2 = Real.pi / 4 := by ring
  rw [h, Real.tan_pi_div_four]
  ring

lemma cornerDistance_right_angle (ru : ℝ) :
    cornerDistance 1 ru 0 (Real.pi / 2) = ru * Real.sqrt 2 := by
  unfold cornerDistance
  have h : (Real.pi - (Real.pi / 2 - 0)) / 2 = Real.pi / 4 := by ring
  rw [h, Real.sin_pi_div_four]
  have hs : Real.sqrt 2 * Real.sqrt 2 = 2 := Real.mul_self_sqrt (by norm_num)
  have hs0 : (0:ℝ) < Real.sqrt 2 := by positivity
  field_simp
  linear_combination (-ru) * hs

lemma cos_three_pi_quarter : Real.cos (3 * Real.pi / 4) = -(Real.sqrt 2 / 2) := by
  have h : (3:ℝ) * Real.pi / 4 = Real.pi - Real.pi / 4 := by ring
  rw [h, Real.cos_pi_sub, Real.cos_pi_div_four]

lemma sin_three_pi_quarter : Real.sin (3 * Real.pi / 4) = Real.sqrt 2 / 2 := by
  have h : (3:ℝ) * Real.pi / 4 = Real.pi - Real.pi / 4 := by ring
  rw [h, Real.sin_pi_sub, Real.sin_pi_div_four]

lemma dvector_abs_vert (d : ℝ) (hd : 0 < d) : dvector_abs (0, d) = d := by
  unfold dvector_abs
  simp only
  rw [show (0:ℝ) ^ 2 + d ^ 2 = d ^ 2 by ring, Real.sqrt_sq hd.le]

lemma dpoint_distance_horiz (d : ℝ) (hd : 0 ≤ d) :
    dpoint_distance ((0:ℝ), (0:ℝ)) (d, 0) = d := by
  unfold dpoint_distance
  simp only
  rw [show (d - 0) ^ 2 + ((0:ℝ) - 0) ^ 2 = d ^ 2 by ring, Real.sqrt_sq hd]

lemma dpoint_distance_vert (x y1 y2 : ℝ) :
    dpoint_distance (x, y1) (x, y2) = |y2 - y1| := by
  unfold dpoint_distance
  simp only
  rw [show (x - x) ^ 2 + (y2 - y1) ^ 2 = (y2 - y1) ^ 2 by ring,
    Real.sqrt_sq_eq_abs]

lemma go_L_path (a b ru d : ℝ) (n : ℕ) (hd : 0 < d) :
    WaveguideCop.produce_impl a b ru n [((0:ℝ), (0:ℝ)), (d, 0), (d, d)] =
      some [Emitted.text (Real.pi / 2) (ru * Real.sqrt 2) 1 (d - ru, ru),
        Emitted.straight a b (d - ru) ⟨1, 0, false, ((0:ℝ), (0:ℝ))⟩,
        Emitted.curved a b (Real.pi / 2) n ru ⟨1, -90, false, (d - ru, ru)⟩,
        Emitted.straight a b |d - ru|
          ⟨1, 180 / Real.pi * atan2 (d - ru) 0, false, (d, ru)⟩] := by
  have hpi := Real.pi_pos
  have hs : Real.sqrt 2 * Real.sqrt 2 = 2 := Real.mul_self_sqrt (by norm_num)
  simp only [WaveguideCop.produce_impl, WaveguideCop.go, Option.some.injEq]
  norm_num
  rw [atan2_zero_pos d hd, atan2_pos_zero d hd]
  rw [vprod_sign_of_pos (d, 0) (0, d) (by simp; positivity),
    cutDistance_right_angle, cornerDistance_right_angle,
    show (Real.pi - (Real.pi / 2 - 0)) / 2 + Real.pi / 2 = 3 * Real.pi / 4
      by ring,
    cos_three_pi_quarter, sin_three_pi_quarter, dvector_abs_vert d hd,
    mul_inv_cancel₀ hd.ne', one_mul, dpoint_distance_vert]
  have hdist0 : dpoint_distance 0 (d, 0) = d := by
    unfold dpoint_distance
    simp [Real.sqrt_sq_eq_abs]
    exact hd.le
  refine ⟨⟨by ring, rfl, rfl, by linear_combination (-ru / 2) * hs,
      by linear_combination (ru / 2) * hs⟩,
    ⟨by rw [hdist0], Or.inr rfl⟩,
    ⟨by ring, by norm_num, by linear_combination (-ru / 2) * hs,
      by linear_combination (ru / 2) * hs⟩,
    by rw [one_mul], Or.inl (by rw [one_mul]), by rw [one_mul]⟩

/-- Claim C1: on the path `[(0,0), (10,0), (10,10)]` with `ru = 2`,
`a = 10`, `b = 5` the decomposer emits one curved segment of turn angle
`pi/2`, computes a cut distance of exactly `2 = ru` (since
`tan(pi/4) = 1`), places the corner at offset `2/sin(pi/4) = 2*sqrt 2` from
the corner waypoint `(10, 0)` (at `(8, 2)`), and emits two straight
segments of length `10 - 2 = 8` each. -/
theorem c1_concrete_scenario (n : ℕ) :
    WaveguideCop.produce_impl 10 5 2 n [((0:ℝ), (0:ℝ)), (10, 0), (10, 10)] =
      some [Emitted.text (Real.pi / 2) (2 * Real.sqrt 2) 1 (8, 2),
        Emitted.straight 10 5 8 ⟨1, 0, false, ((0:ℝ), (0:ℝ))⟩,
        Emitted.curved 10 5 (Real.pi / 2) n 2 ⟨1, -90, false, (8, 2)⟩,
        Emitted.straight 10 5 8 ⟨1, 90, false, (10, 2)⟩] ∧
    cutDistance 1 2 0 (Real.pi / 2) = 2 ∧
    cornerDistance 1 2 0 (Real.pi / 2) = 2 * Real.sqrt 2 := by
  have hpi := Real.pi_pos
  refine ⟨?_, cutDistance_right_angle 2,
    by rw [cornerDistance_right_angle]⟩
  rw [go_L_path 10 5 2 10 n (by norm_num)]
  norm_num
  have ha : (180:ℝ) / Real.pi * atan2 8 0 = 90 := by
    rw [atan2_pos_zero 8 (by norm_num)]
    field_simp
    ring
  rw [ha]

/-- Claim C5 concerns the unguarded infeasible-radius case: on the path
`[(0,0), (1,0), (1,1)]` with `ru = 2` the cut distance `2` exceeds the
segment length `1`, and the decomposer silently returns descriptors
containing a straight segment of negative length `1 - 2 = -1` instead of
failing with a "bend radius infeasible" error. -/
theorem c5_infeasible_radius_eval :
    WaveguideCop.produce_impl 10 5 2 64 [((0:ℝ), (0:ℝ)), (1, 0), (1, 1)] =
      some [Emitted.text (Real.pi / 2) (2 * Real.sqrt 2) 1 (-1, 2),
        Emitted.straight 10 5 (-1) ⟨1, 0, false, ((0:ℝ), (0:ℝ))⟩,
        Emitted.curved 10 5 (Real.pi / 2) 64 2 ⟨1, -90, false, (-1, 2)⟩,
        Emitted.straight 10 5 1 ⟨1, -90, false, (1, 2)⟩] ∧
    ((-1:ℝ) < 0) := by
  have hpi := Real.pi_pos
  refine ⟨?_, by norm_num⟩
  rw [go_L_path 10 5 2 1 64 (by norm_num)]
  norm_num
  have ha : (180:ℝ) / Real.pi * atan2 (-1) 0 = -90 := by
    rw [atan2_neg_zero (-1) (by norm_num)]
    field_simp
    ring
  rw [ha]

/-! ## Claims about the Elmer solution schemas -/

/-- Claim C6: `get_elmer_solution` selects by exact string match on the
`tool` tag — for each registered tag, construction with valid fields
succeeds and returns an instance of that schema class; for any other tag
it fails with the documented `ValueError` message instead of silently
defaulting. -/
theorem c6_schema_selector :
    (∀ (p : Kwargs) (s : ElmerVectorHelmholtzSolution),
      ElmerVectorHelmholtzSolution.ofKwargs p = some s →
      get_elmer_solution "wave_equation" p =
        Except.ok (ElmerSol.vectorHelmholtz s)) ∧
    (∀ (p : Kwargs) (s : ElmerCapacitanceSolution),
      ElmerCapacitanceSolution.ofKwargs p = some s →
      get_elmer_solution "capacitance" p =
        Except.ok (ElmerSol.capacitance s)) ∧
    (∀ (p : Kwargs) (s : ElmerCrossSectionSolution),
      ElmerCrossSectionSolution.ofKwargs p = some s →
      get_elmer_solution "cross-section" p =
        Except.ok (ElmerSol.crossSection s)) ∧
    (∀ (t : String) (p : Kwargs),
      t ≠ "wave_equation" → t ≠ "capacitance" → t ≠ "cross-section" →
      get_elmer_solution t p =
        Except.error ("No ElmerSolution found for tool=" ++ t ++ ".")) := by
  refine ⟨?_, ?_, ?_, ?_⟩
  · intro p s h
    simp [get_elmer_solution, ElmerVectorHelmholtzSolution.tool, h]
  · intro p s h
    simp [get_elmer_solution, ElmerVectorHelmholtzSolution.tool,
      ElmerCapacitanceSolution.tool, h]
  · intro p s h
    simp [get_elmer_solution, ElmerVectorHelmholtzSolution.tool,
      ElmerCapacitanceSolution.tool, ElmerCrossSectionSolution.tool, h]
  · intro t p h1 h2 h3
    simp [get_elmer_solution, ElmerVectorHelmholtzSolution.tool,
      ElmerCapacitanceSolution.tool, ElmerCrossSectionSolution.tool,
      h1, h2, h3]

/-- Witness for C6: each registered tag with empty keyword arguments, and
the unregistered tag "maxwell". -/
theorem c6_schema_selector_witness :
    get_elmer_solution "wave_equation" [] =
      Except.ok (ElmerSol.vectorHelmholtz
        { frequency := FreqArg.ofList [((5:ℤ) : ℚ)] }) ∧
    get_elmer_solution "capacitance" [] =
      Except.ok (ElmerSol.capacitance {}) ∧
    get_elmer_solution "cross-section" [] =
      Except.ok (ElmerSol.crossSection {}) ∧
    get_elmer_solution "maxwell" [] =
      Except.error "No ElmerSolution found for tool=maxwell." :=
  ⟨c6_schema_selector.1 [] _ rfl,
   c6_schema_selector.2.1 [] {} rfl,
   c6_schema_selector.2.2.1 [] {} rfl,
   c6_schema_selector.2.2.2 "maxwell" [] (by decide) (by decide) (by decide)⟩

/-- Claim C7: after `__post_init__` — and hence after any construction of
an `ElmerVectorHelmholtzSolution`, whether `frequency` was supplied as a
scalar `int` or `float`, as a list, or as another iterable — the
`frequency` field is always a list. -/
theorem c7_frequency_normalized :
    (∀ s : ElmerVectorHelmholtzSolution,
      ∃ l, s.post_init.frequency = FreqArg.ofList l) ∧
    (∀ (p : Kwargs) (s : ElmerVectorHelmholtzSolution),
      ElmerVectorHelmholtzSolution.ofKwargs p = some s →
      ∃ l, s.frequency = FreqArg.ofList l) := by
  have hpost : ∀ s : ElmerVectorHelmholtzSolution,
      ∃ l, s.post_init.frequency = FreqArg.ofList l := by
    intro s
    unfold ElmerVectorHelmholtzSolution.post_init
    rcases hf : s.frequency with i | q | l | l
    · exact ⟨[(i : ℚ)], by simp [hf]⟩
    · exact ⟨[q], by simp [hf]⟩
    · exact ⟨l, by simp [hf]⟩
    · exact ⟨l, by simp [hf]⟩
  refine ⟨hpost, ?_⟩
  intro p s h
  unfold ElmerVectorHelmholtzSolution.ofKwargs at h
  obtain ⟨s0, _, hmap⟩ := Option.map_eq_some'.mp h
  rw [← hmap]
  exact hpost s0

/-- Witness for C7: `frequency` supplied as the scalar float `7`. -/
theorem c7_frequency_normalized_witness :
    ElmerVectorHelmholtzSolution.ofKwargs [("frequency", PyVal.num 7)] =
      some { frequency := FreqArg.ofList [(7:ℚ)] } ∧
    (∃ l, ({ frequency := FreqArg.ofList [(7:ℚ)] } :
        ElmerVectorHelmholtzSolution).frequency = FreqArg.ofList l) :=
  ⟨rfl, c7_frequency_normalized.2 [("frequency", PyVal.num 7)] _ rfl⟩

/-- Claim C8: for every schema instance, `get_solution_data` returns a flat
mapping that binds `"tool"` to the class-level tool discriminator, binds
`"solution_name"` to the value of the reserved `name` field, no longer
contains the key `"name"`, and contains every other instance field
unchanged. -/
theorem c8_solution_data (s : ElmerSol) :
    ∃ m, get_solution_data s = some m ∧
      m.lookup "tool" = some (PyVal.str s.tool) ∧
      m.lookup "solution_name" = some (PyVal.str s.name) ∧
      m.lookup "name" = none ∧
      ∀ kv ∈ s.fields, kv.1 ≠ "name" → kv ∈ m := by
  refine ⟨(s.fields ++ [("tool", PyVal.str s.tool)]).filter
      (fun kv => kv.1 != "name") ++ [("solution_name", PyVal.str s.name)],
    ?_, ?_, ?_, ?_, ?_⟩
  · cases s <;> rfl
  · cases s <;> rfl
  · cases s <;> rfl
  · cases s <;> rfl
  · intro kv hkv hne
    apply List.mem_append_left
    apply List.mem_filter.mpr
    refine ⟨List.mem_append_left _ hkv, ?_⟩
    simpa using hne

/-- Witness for C8 at a default-constructed capacitance instance and its
field `p_element_order`. -/
theorem c8_solution_data_witness :
    ∃ m, get_solution_data (ElmerSol.capacitance {}) = some m ∧
      m.lookup "tool" = some (PyVal.str (ElmerSol.capacitance {}).tool) ∧
      m.lookup "solution_name" =
        some (PyVal.str (ElmerSol.capacitance {}).name) ∧
      m.lookup "name" = none ∧
      ("p_element_order", PyVal.int 3) ∈ m := by
  obtain ⟨m, h1, h2, h3, h4, h5⟩ := c8_solution_data (ElmerSol.capacitance {})
  refine ⟨m, h1, h2, h3, h4, h5 _ ?_ (by decide)⟩
  apply List.mem_append_left
  exact List.mem_cons_of_mem _ (List.mem_cons_self _ _)
